import Mathlib

/-
Verification of the rig-go RPC core against its specification.

The definitions below are a shallow embedding of the Go sources:
  - rig/mrpc/mrpc.go (MessagePack RPC: Scope, registry, connection loop)
  - rig/jrpc/jrpc.go (JSON RPC: Scope, registry, connection loop)
  - rig/hook/hook.go (dependency orderer)
  - rig/mrpc/internal/protocol (binary response envelope)
  - rig/jrpc/internal/protocol (JSON response envelope)

Byte strings are modelled as List Nat (each entry one byte); Go maps that
are only written during configuration are modelled as lookup functions;
the per-connection transport write is modelled by collecting the frames a
call emits into a list, in order.
-/

set_option linter.unusedVariables false

namespace RigGo

/-! ## mrpc Scope model (rig/mrpc/mrpc.go)

A Scope holds the request fields and the send function bound to the
connection.  `ctx.send` being nil in Go is modelled by `sendSet = false`.
A send operation returns the updated scope, the Go error return (`none`
for nil) and the list of frames written to the transport by the call.
Since the envelope encoding of the modelled outputs cannot fail, a frame
is written exactly when `send` is set, matching `Scope.Respond`. -/

/-- The `output` slot of an mrpc response frame: nil, a `protocol.Fail`
value, or an opaque already-encoded payload blob. -/
inductive MOutput where
  | nilOut : MOutput
  | failOut (code : Int) (msg : String) : MOutput
  | blob (bytes : List Nat) : MOutput
deriving DecidableEq

/-- One mrpc response frame as handed to the transport: the
`protocol.Response{ID, Method, Output}` value built by `Scope.Respond`. -/
structure MFrame where
  id : String
  method : String
  output : MOutput
deriving DecidableEq

/-- The mrpc `Scope`: request fields plus the send-function state. -/
structure MScope where
  id : String
  reqMethod : String
  function : String
  input : List Nat
  sendSet : Bool
deriving DecidableEq

/-- Result of one mrpc scope operation: updated scope, Go error return,
frames written to the transport. -/
structure MSendResult where
  scope : MScope
  err : Option String
  frames : List MFrame
deriving DecidableEq

/-- `Scope.Respond`: errors with "response not supported" when `send` is
nil, otherwise encodes `protocol.Response{ID: ctx.ID, Method: method,
Output: output}` and writes it. -/
def mRespond (s : MScope) (method : String) (output : MOutput) : MSendResult :=
  if s.sendSet then ⟨s, none, [⟨s.id, method, output⟩]⟩
  else ⟨s, some "response not supported", []⟩

/-- `Scope.Succ`: responds with method "succ".  Note the Go code does not
clear `ctx.send` here. -/
def mSucc (s : MScope) (output : MOutput) : MSendResult := mRespond s "succ" output

/-- `Scope.Yield`: responds with method "yield"; never clears `ctx.send`. -/
def mYield (s : MScope) (output : MOutput) : MSendResult := mRespond s "yield" output

/-- `Scope.End`: responds with method "end" and nil output, then sets
`ctx.send = nil` (regardless of the respond error). -/
def mEnd (s : MScope) : MSendResult :=
  let r := mRespond s "end" MOutput.nilOut
  ⟨{ r.scope with sendSet := false }, r.err, r.frames⟩

/-- `Scope.Fail`: responds with method "fail" carrying `protocol.Fail{Code,
Msg}`, then sets `ctx.send = nil`. -/
def mFail (s : MScope) (code : Int) (msg : String) : MSendResult :=
  let r := mRespond s "fail" (MOutput.failOut code msg)
  ⟨{ r.scope with sendSet := false }, r.err, r.frames⟩

/-! ## jrpc Scope model (rig/jrpc/jrpc.go) -/

/-- A JSON value; Go `any` values are modelled by their JSON image, with
`JVal.null` standing for a nil interface. -/
inductive JVal where
  | null : JVal
  | bool (b : Bool) : JVal
  | num (n : Int) : JVal
  | str (s : String) : JVal
  | arr (xs : List JVal) : JVal
  | obj (fields : List (String × JVal)) : JVal

/-- The jrpc `protocol.Error` value: code, message and optional data
(`data` is tagged omitempty; `JVal.null` models a nil `Data`). -/
structure JErr where
  code : Int
  message : String
  data : JVal

/-- One jrpc response frame: the `protocol.Response{ID, Result, Error,
End}` value marshalled and handed to the transport. -/
structure JFrame where
  id : String
  result : JVal
  error : Option JErr
  endB : Bool

/-- The jrpc `Scope`: request fields plus the send-function state.
`params` models the raw `json.RawMessage` by its JSON value. -/
structure JScope where
  id : String
  method : String
  params : JVal
  sendSet : Bool

/-- Result of one jrpc scope operation. -/
structure JSendResult where
  scope : JScope
  err : Option String
  frames : List JFrame

/-- `Scope.respond`: errors with "response not supported" when `send` is
nil, otherwise sets `ret.ID = ctx.ID`, marshals and writes the response. -/
def jRespond (s : JScope) (result : JVal) (error : Option JErr) (endB : Bool) : JSendResult :=
  if s.sendSet then ⟨s, none, [⟨s.id, result, error, endB⟩]⟩
  else ⟨s, some "response not supported", []⟩

/-- `Scope.Succ`: responds with `Response{Result: result}`.  Note the Go
code does not clear `ctx.send` here. -/
def jSucc (s : JScope) (result : JVal) : JSendResult := jRespond s result none false

/-- `Scope.Fail`: responds with `Response{Error: &Error{Code, Message}}`,
then sets `ctx.send = nil`. -/
def jFail (s : JScope) (code : Int) (msg : String) : JSendResult :=
  let r := jRespond s JVal.null (some ⟨code, msg, JVal.null⟩) false
  ⟨{ r.scope with sendSet := false }, r.err, r.frames⟩

/-- The scope returned by `mRespond` is the input scope (both branches). -/
theorem mRespond_scope (s : MScope) (m : String) (o : MOutput) :
    (mRespond s m o).scope = s := by
  unfold mRespond; split <;> rfl

/-- The scope returned by `jRespond` is the input scope (both branches). -/
theorem jRespond_scope (s : JScope) (r : JVal) (e : Option JErr) (b : Bool) :
    (jRespond s r e b).scope = s := by
  unfold jRespond; split <;> rfl

/-- C1: after a handler calls `Succ` on a Scope, further sends are NOT
disabled by the code: evaluating `Succ` then `Yield` on a fresh mrpc
scope shows the second call returns a nil error and writes a second
frame to the transport, where the specification requires a "response not
supported" error and no frame.  (`Scope.Succ` never clears `ctx.send`;
only `End` and `Fail` do.) -/
theorem c1_succ_then_yield_writes_second_frame :
    let s0 : MScope := ⟨"1", "call", "f", [], true⟩
    let r1 := mSucc s0 (MOutput.blob [1])
    let r2 := mYield r1.scope (MOutput.blob [2])
    r1.err = none ∧ r1.frames = [⟨"1", "succ", MOutput.blob [1]⟩] ∧
    r2.err = none ∧ r2.frames = [⟨"1", "yield", MOutput.blob [2]⟩] := by
  decide

/-- C5: after `End` or `Fail` on an mrpc Scope, or `Fail` on a jrpc
Scope, every further send attempt through that scope returns the local
error "response not supported" and writes no frame to the transport (the
scope is returned unchanged, so the connection and other in-flight
requests are unaffected). -/
theorem c5_post_terminal_sends_rejected :
    (∀ (s : MScope) (m : String) (o : MOutput),
      mRespond (mEnd s).scope m o = ⟨(mEnd s).scope, some "response not supported", []⟩)
    ∧ (∀ (s : MScope) (c : Int) (msg : String) (m : String) (o : MOutput),
      mRespond (mFail s c msg).scope m o
        = ⟨(mFail s c msg).scope, some "response not supported", []⟩)
    ∧ (∀ (s : JScope) (c : Int) (msg : String) (res : JVal) (er : Option JErr) (eb : Bool),
      jRespond (jFail s c msg).scope res er eb
        = ⟨(jFail s c msg).scope, some "response not supported", []⟩) := by
  refine ⟨fun s m o => ?_, fun s c msg m o => ?_, fun s c msg res er eb => ?_⟩
  · have h : (mEnd s).scope = { s with sendSet := false } := by
      simp [mEnd, mRespond_scope]
    rw [h]; simp [mRespond]
  · have h : (mFail s c msg).scope = { s with sendSet := false } := by
      simp [mFail, mRespond_scope]
    rw [h]; simp [mRespond]
  · have h : (jFail s c msg).scope = { s with sendSet := false } := by
      simp [jFail, jRespond_scope]
    rw [h]; simp [jRespond]

/-! ## mrpc registry, middleware and default dispatch (rig/mrpc/mrpc.go)

`config` holds the two handler tables and the top-level handler.  In Go,
`cfg.handler` is initialised to the bound method `cfg.handleRequest`,
which reads the tables at call time (so table registrations applied
after a `Use` option are still visible).  This late binding is modelled
by storing the handler as a function of the final tables; `mDispatch`
supplies the configuration's own tables, as a call through `cfg.handler`
does in Go. -/

/-- An mrpc `Handler`, observed by the frames it writes to the transport. -/
def MHandler := MScope → List MFrame

/-- A handler table (`map[string]Handler`, nil lookups give `none`). -/
def MTable := String → Option MHandler

/-- The mrpc `config`: handler tables plus the (late-bound) top handler. -/
structure MConfig where
  callT : MTable
  startT : MTable
  handler : MTable → MTable → MScope → List MFrame

/-- An mrpc `Option` mutates the configuration. -/
def MOpt := MConfig → MConfig

/-- `config.handleRequest`: select the table from the request method
("call" or "start", otherwise fail 404 "method not found"), then look up
the function (missing functions fail 404 with a quoted name). -/
def mHandleRequest (callT startT : MTable) (s : MScope) : List MFrame :=
  let table : Option MTable :=
    if s.reqMethod = "call" then some callT
    else if s.reqMethod = "start" then some startT
    else none
  match table with
  | none => (mFail s 404 "method not found").frames
  | some t =>
    match t s.function with
    | none => (mFail s 404 ("function \"" ++ s.function ++ "\" not found")).frames
    | some h => h s

/-- `config.init` before options are applied: empty tables, handler is
the bound `handleRequest`. -/
def mInitConfig : MConfig :=
  ⟨fun _ => none, fun _ => none, fun ct st => mHandleRequest ct st⟩

/-- `config.init`: start from the defaults, then apply each option in
the order given. -/
def mApplyOptions (opts : List MOpt) : MConfig :=
  opts.foldl (fun c o => o c) mInitConfig

/-- The dispatch function a connection uses: `cfg.handler`, reading the
configuration's final tables. -/
def mDispatch (cfg : MConfig) : MScope → List MFrame :=
  cfg.handler cfg.callT cfg.startT

/-- mrpc `Use`: replaces `cfg.handler` with `fn(cfg.handler)`. -/
def mUse (w : MHandler → MHandler) : MOpt := fun cfg =>
  { cfg with handler := fun ct st => w (cfg.handler ct st) }

/-- The wrapped handler `CallFn` registers: decode the input (failures
fail 406 and never reach `fn`), run `fn` (errors fail 500 with the
error's message), otherwise send the encoded output with `Succ`. -/
def mCallFnHandler {I O : Type} (dec : List Nat → Except String I)
    (enc : O → List Nat) (fn : MScope → I → Except String O) : MHandler := fun s =>
  match dec s.input with
  | .error e => (mFail s 406 (e ++ " while decoding input")).frames
  | .ok i =>
    match fn s i with
    | .error e => (mFail s 500 e).frames
    | .ok o => (mSucc s (MOutput.blob (enc o))).frames

/-- mrpc `CallFn`: registers the wrapped handler in the call table under
`function` (a plain map assignment, overwriting any previous entry). -/
def mCallFn {I O : Type} (function : String) (dec : List Nat → Except String I)
    (enc : O → List Nat) (fn : MScope → I → Except String O) : MOpt := fun cfg =>
  { cfg with
    callT := fun g => if g = function then some (mCallFnHandler dec enc fn) else cfg.callT g }

/-! ## jrpc registry, middleware and default dispatch (rig/jrpc/jrpc.go) -/

/-- A jrpc `Handler`, observed by the frames it writes. -/
def JHandler := JScope → List JFrame

/-- A jrpc handler table. -/
def JTable := String → Option JHandler

/-- The jrpc `config` (modelled like `MConfig`). -/
structure JConfig where
  procT : JTable
  callT : JTable
  handler : JTable → JTable → JScope → List JFrame

/-- A jrpc `Option`. -/
def JOpt := JConfig → JConfig

/-- jrpc `config.handleRequest`: an empty id selects the proc table, a
non-empty id the call table; the method names the function; missing
functions fail 404 with a quoted name. -/
def jHandleRequest (procT callT : JTable) (s : JScope) : List JFrame :=
  let t : JTable := if s.id = "" then procT else callT
  match t s.method with
  | none => (jFail s 404 ("function \"" ++ s.method ++ "\" not found")).frames
  | some h => h s

/-- jrpc `config.init` before options are applied. -/
def jInitConfig : JConfig :=
  ⟨fun _ => none, fun _ => none, fun pt ct => jHandleRequest pt ct⟩

/-- jrpc `config.init`: apply each option in order. -/
def jApplyOptions (opts : List JOpt) : JConfig :=
  opts.foldl (fun c o => o c) jInitConfig

/-- The jrpc dispatch function a connection uses. -/
def jDispatch (cfg : JConfig) : JScope → List JFrame :=
  cfg.handler cfg.procT cfg.callT

/-- jrpc `Use`: replaces `cfg.handler` with `fn(cfg.handler)`. -/
def jUse (w : JHandler → JHandler) : JOpt := fun cfg =>
  { cfg with handler := fun pt ct => w (cfg.handler pt ct) }

/-- The wrapped handler jrpc `Fn` registers (decode, run, respond). -/
def jFnHandler {I O : Type} (dec : JVal → Except String I)
    (enc : O → JVal) (fn : JScope → I → Except String O) : JHandler := fun s =>
  match dec s.params with
  | .error e => (jFail s 406 (e ++ " while decoding input")).frames
  | .ok i =>
    match fn s i with
    | .error e => (jFail s 500 e).frames
    | .ok o => (jSucc s (enc o)).frames

/-- jrpc `Fn`: registers the wrapped handler in the call table. -/
def jFn {I O : Type} (function : String) (dec : JVal → Except String I)
    (enc : O → JVal) (fn : JScope → I → Except String O) : JOpt := fun cfg =>
  { cfg with
    callT := fun g => if g = function then some (jFnHandler dec enc fn) else cfg.callT g }

/-! ## Connection loop (config.serveHTTP in mrpc.go and jrpc.go)

The loop reads framed messages until the transport closes.  The input
list models the successfully read frames of one connection, in order; the
end of the list is a clean close (the loop exits without error).  Frames
whose websocket message type differs from the encoding's expected type
are skipped before any decoding.  A frame that fails to decode makes
`serveHTTP` return that error, abandoning the rest of the connection.
The result collects the requests dispatched to handler goroutines, in
read order, together with the error `serveHTTP` returns. -/

/-- A websocket message type (`websocket.MessageBinary` / `MessageText`). -/
inductive MsgType where
  | binary : MsgType
  | text : MsgType
deriving DecidableEq

/-- One successfully read inbound frame. -/
structure InMsg where
  mt : MsgType
  bytes : List Nat
deriving DecidableEq

/-- The read/decode/dispatch loop shared by both encodings, parameterised
by the expected message type and the request decoder. -/
def loopRun {Req Err : Type} (expected : MsgType) (dec : List Nat → Except Err Req) :
    List InMsg → List Req × Option Err
  | [] => ([], none)
  | m :: rest =>
    if m.mt = expected then
      match dec m.bytes with
      | .error e => ([], some e)
      | .ok req =>
        let r := loopRun expected dec rest
        (req :: r.1, r.2)
    else loopRun expected dec rest

/-- A small concrete request decoder used to instantiate loop theorems:
the empty frame is malformed, anything else decodes. -/
def mdec0 : List Nat → Except String Unit := fun bs =>
  if bs = [] then .error "bad" else .ok ()

/-- C2 counterexample: with a malformed first frame followed by a
well-formed one, the loop dispatches nothing and returns the decode
error — the connection is terminated and the subsequent message is never
read, contradicting the claim that only that message's handling fails
and the loop continues.  (Alone, the second frame would be dispatched.) -/
theorem c2_decode_error_kills_connection :
    loopRun MsgType.binary mdec0 [⟨MsgType.binary, []⟩, ⟨MsgType.binary, [1]⟩]
      = ([], some "bad")
    ∧ loopRun MsgType.binary mdec0 [⟨MsgType.binary, [1]⟩] = ([()], none) := by
  decide

/-- C2 (amended): for an inbound frame of the expected transport type
whose bytes fail to decode into a Request envelope, `serveHTTP` returns
the decode error: the connection is terminated, and no request from that
frame or any subsequent frame is dispatched. -/
theorem c2_decode_error_terminates {Req Err : Type} (expected : MsgType)
    (dec : List Nat → Except Err Req) (m : InMsg) (rest : List InMsg) (e : Err)
    (hmt : m.mt = expected) (hdec : dec m.bytes = .error e) :
    loopRun expected dec (m :: rest) = ([], some e) := by
  simp [loopRun, hmt, hdec]

/-- Witness for the amended C2 theorem at a concrete connection. -/
theorem c2_decode_error_terminates_witness :
    loopRun MsgType.binary mdec0 [⟨MsgType.binary, []⟩, ⟨MsgType.binary, [1]⟩]
      = ([], some "bad") :=
  c2_decode_error_terminates MsgType.binary mdec0 ⟨MsgType.binary, []⟩
    [⟨MsgType.binary, [1]⟩] "bad" rfl rfl

/-- C10: a successfully read frame whose message type differs from the
encoding's expected type is silently skipped: the loop result is exactly
the result for the remaining messages — no decode, no dispatch, no
response, no error from that frame. -/
theorem c10_wrong_message_type_skipped {Req Err : Type} (expected : MsgType)
    (dec : List Nat → Except Err Req) (m : InMsg) (rest : List InMsg)
    (h : m.mt ≠ expected) :
    loopRun expected dec (m :: rest) = loopRun expected dec rest := by
  simp [loopRun, h]

/-- Witness for C10 at a concrete connection. -/
theorem c10_wrong_message_type_skipped_witness :
    loopRun MsgType.binary mdec0 [⟨MsgType.text, [1]⟩, ⟨MsgType.binary, [1]⟩]
      = loopRun MsgType.binary mdec0 [⟨MsgType.binary, [1]⟩] :=
  c10_wrong_message_type_skipped MsgType.binary mdec0 ⟨MsgType.text, [1]⟩
    [⟨MsgType.binary, [1]⟩] (by decide)

/-- A middleware that tags frames with "w1" on the way in. -/
def c3w1 : MHandler → MHandler := fun h s => ⟨s.id, "w1", MOutput.nilOut⟩ :: h s

/-- A middleware that tags frames with "w2" on the way in. -/
def c3w2 : MHandler → MHandler := fun h s => ⟨s.id, "w2", MOutput.nilOut⟩ :: h s

/-- A concrete scope for exercising middleware composition. -/
def c3scope : MScope := ⟨"1", "call", "f", [], true⟩

/-- C3 counterexample: registering `use(w1)` then `use(w2)` does NOT
produce the dispatch function `w1 (w2 base)`: on a concrete request the
configured dispatch runs w2 first (the LAST registered `use` is the
outermost wrapper), so the claim's composition order is false. -/
theorem c3_first_use_not_outermost :
    mDispatch (mApplyOptions [mUse c3w1, mUse c3w2]) c3scope
      ≠ c3w1 (c3w2 (mDispatch mInitConfig)) c3scope := by
  decide

/-- Folding mrpc `Use` options only rewraps the handler field. -/
theorem mUse_foldl (ws : List (MHandler → MHandler)) (cfg : MConfig) :
    ((ws.map mUse).foldl (fun c o => o c) cfg)
      = { cfg with handler := fun ct st => ws.foldl (fun h w => w h) (cfg.handler ct st) } := by
  induction ws generalizing cfg with
  | nil => rfl
  | cons w ws ih =>
    simp only [List.map_cons, List.foldl_cons]
    rw [ih]
    rfl

/-- Folding jrpc `Use` options only rewraps the handler field. -/
theorem jUse_foldl (ws : List (JHandler → JHandler)) (cfg : JConfig) :
    ((ws.map jUse).foldl (fun c o => o c) cfg)
      = { cfg with handler := fun pt ct => ws.foldl (fun h w => w h) (cfg.handler pt ct) } := by
  induction ws generalizing cfg with
  | nil => rfl
  | cons w ws ih =>
    simp only [List.map_cons, List.foldl_cons]
    rw [ih]
    rfl

/-- C3 (amended): for registrations `use(f1), ..., use(fn)` applied in
that order, the resulting dispatch function equals
`fn (fn-1 (... (f1 base) ...))`: the LAST `use` registered is the
outermost wrapper (`Use` sets `cfg.handler = fn(cfg.handler)`), in both
encodings. -/
theorem c3_last_use_is_outermost :
    (∀ ws : List (MHandler → MHandler),
      mDispatch (mApplyOptions (ws.map mUse))
        = ws.foldl (fun h w => w h) (mDispatch mInitConfig))
    ∧ (∀ ws : List (JHandler → JHandler),
      jDispatch (jApplyOptions (ws.map jUse))
        = ws.foldl (fun h w => w h) (jDispatch jInitConfig)) := by
  constructor
  · intro ws
    show mDispatch ((ws.map mUse).foldl (fun c o => o c) mInitConfig) = _
    rw [mUse_foldl]
    rfl
  · intro ws
    show jDispatch ((ws.map jUse).foldl (fun c o => o c) jInitConfig) = _
    rw [jUse_foldl]
    rfl

/-- C7: registering two handlers under the same function name in the
same kind's table (mrpc `CallFn` twice, or jrpc `Fn` twice) overwrites:
the subsequent lookup returns the wrapped form of the most recently
registered handler. -/
theorem c7_last_registration_wins :
    (∀ {I1 O1 I2 O2 : Type} (f : String) (cfg : MConfig)
      (dec1 : List Nat → Except String I1) (enc1 : O1 → List Nat)
      (fn1 : MScope → I1 → Except String O1)
      (dec2 : List Nat → Except String I2) (enc2 : O2 → List Nat)
      (fn2 : MScope → I2 → Except String O2),
      (mCallFn f dec2 enc2 fn2 (mCallFn f dec1 enc1 fn1 cfg)).callT f
        = some (mCallFnHandler dec2 enc2 fn2))
    ∧ (∀ {I1 O1 I2 O2 : Type} (f : String) (cfg : JConfig)
      (dec1 : JVal → Except String I1) (enc1 : O1 → JVal)
      (fn1 : JScope → I1 → Except String O1)
      (dec2 : JVal → Except String I2) (enc2 : O2 → JVal)
      (fn2 : JScope → I2 → Except String O2),
      (jFn f dec2 enc2 fn2 (jFn f dec1 enc1 fn1 cfg)).callT f
        = some (jFnHandler dec2 enc2 fn2)) := by
  constructor
  · intro I1 O1 I2 O2 f cfg dec1 enc1 fn1 dec2 enc2 fn2
    simp [mCallFn]
  · intro I1 O1 I2 O2 f cfg dec1 enc1 fn1 dec2 enc2 fn2
    simp [jFn]

/-- C6: behaviour of a registered call handler (mrpc `CallFn`, jrpc
`Fn`) on a live scope: a decode failure emits a single 406 failure frame
and the result does not depend on the user function at all (it is never
invoked); a user-function error emits a single 500 failure frame with
the error's message; success emits a single success frame carrying the
encoded output. -/
theorem c6_call_wrapper_behavior :
    (∀ {I O : Type} (dec : List Nat → Except String I) (enc : O → List Nat)
      (fn : MScope → I → Except String O) (s : MScope), s.sendSet = true →
      (∀ e, dec s.input = .error e →
        mCallFnHandler dec enc fn s
          = [⟨s.id, "fail", MOutput.failOut 406 (e ++ " while decoding input")⟩]
        ∧ ∀ fn2 : MScope → I → Except String O,
            mCallFnHandler dec enc fn2 s = mCallFnHandler dec enc fn s)
      ∧ (∀ i e, dec s.input = .ok i → fn s i = .error e →
        mCallFnHandler dec enc fn s = [⟨s.id, "fail", MOutput.failOut 500 e⟩])
      ∧ (∀ i o, dec s.input = .ok i → fn s i = .ok o →
        mCallFnHandler dec enc fn s = [⟨s.id, "succ", MOutput.blob (enc o)⟩]))
    ∧ (∀ {I O : Type} (dec : JVal → Except String I) (enc : O → JVal)
      (fn : JScope → I → Except String O) (s : JScope), s.sendSet = true →
      (∀ e, dec s.params = .error e →
        jFnHandler dec enc fn s
          = [⟨s.id, JVal.null, some ⟨406, e ++ " while decoding input", JVal.null⟩, false⟩]
        ∧ ∀ fn2 : JScope → I → Except String O,
            jFnHandler dec enc fn2 s = jFnHandler dec enc fn s)
      ∧ (∀ i e, dec s.params = .ok i → fn s i = .error e →
        jFnHandler dec enc fn s = [⟨s.id, JVal.null, some ⟨500, e, JVal.null⟩, false⟩])
      ∧ (∀ i o, dec s.params = .ok i → fn s i = .ok o →
        jFnHandler dec enc fn s = [⟨s.id, enc o, none, false⟩])) := by
  constructor
  · intro I O dec enc fn s hs
    refine ⟨fun e he => ⟨?_, fun fn2 => ?_⟩, fun i e hi he => ?_, fun i o hi ho => ?_⟩
    · simp [mCallFnHandler, he, mFail, mRespond, hs]
    · simp [mCallFnHandler, he]
    · simp [mCallFnHandler, hi, he, mFail, mRespond, hs]
    · simp [mCallFnHandler, hi, ho, mSucc, mRespond, hs]
  · intro I O dec enc fn s hs
    refine ⟨fun e he => ⟨?_, fun fn2 => ?_⟩, fun i e hi he => ?_, fun i o hi ho => ?_⟩
    · simp [jFnHandler, he, jFail, jRespond, hs]
    · simp [jFnHandler, he]
    · simp [jFnHandler, hi, he, jFail, jRespond, hs]
    · simp [jFnHandler, hi, ho, jSucc, jRespond, hs]

/-- A concrete decoder for the C6 witness: empty input is malformed. -/
def c6dec : List Nat → Except String Nat := fun bs =>
  match bs with
  | [] => .error "boom"
  | b :: _ => .ok b

/-- A concrete encoder for the C6 witness. -/
def c6enc : Nat → List Nat := fun n => [n]

/-- A concrete user function for the C6 witness. -/
def c6fn : MScope → Nat → Except String Nat := fun _ n => .ok (n + 1)

/-- Witness for C6: applying the wrapped handler to a scope with
malformed input emits exactly the 406 failure frame. -/
theorem c6_call_wrapper_behavior_witness :
    mCallFnHandler c6dec c6enc c6fn ⟨"9", "call", "g", [], true⟩
      = [⟨"9", "fail", MOutput.failOut 406 "boom while decoding input"⟩] :=
  ((c6_call_wrapper_behavior.1 c6dec c6enc c6fn ⟨"9", "call", "g", [], true⟩ rfl).1
    "boom" rfl).1

/-- C4: request routing by the default top-level handlers.  mrpc selects
the table from the request method ("call" vs "start"; any other method
fails 404 "method not found"); jrpc selects from id presence (empty id
routes to the proc table, non-empty to the call table).  An unknown
function fails 404 with message `function "<name>" not found`; a
registered handler is invoked on the scope.  The final conjunct shows
the connection loop continues with the remaining messages after any
dispatched request, whatever its handler does — a 404 failure is a
response, not a connection close. -/
theorem c4_routing_and_not_found :
    (∀ (ct st : MTable) (s : MScope), s.sendSet = true →
      s.reqMethod ≠ "call" → s.reqMethod ≠ "start" →
      mHandleRequest ct st s = [⟨s.id, "fail", MOutput.failOut 404 "method not found"⟩])
    ∧ (∀ (ct st : MTable) (s : MScope), s.sendSet = true → s.reqMethod = "call" →
      ct s.function = none →
      mHandleRequest ct st s
        = [⟨s.id, "fail", MOutput.failOut 404 ("function \"" ++ s.function ++ "\" not found")⟩])
    ∧ (∀ (ct st : MTable) (s : MScope), s.sendSet = true → s.reqMethod = "start" →
      st s.function = none →
      mHandleRequest ct st s
        = [⟨s.id, "fail", MOutput.failOut 404 ("function \"" ++ s.function ++ "\" not found")⟩])
    ∧ (∀ (ct st : MTable) (s : MScope) (h : MHandler), s.reqMethod = "call" →
      ct s.function = some h → mHandleRequest ct st s = h s)
    ∧ (∀ (ct st : MTable) (s : MScope) (h : MHandler), s.reqMethod = "start" →
      st s.function = some h → mHandleRequest ct st s = h s)
    ∧ (∀ (pt ct : JTable) (s : JScope), s.sendSet = true → s.id = "" →
      pt s.method = none →
      jHandleRequest pt ct s
        = [⟨s.id, JVal.null,
            some ⟨404, "function \"" ++ s.method ++ "\" not found", JVal.null⟩, false⟩])
    ∧ (∀ (pt ct : JTable) (s : JScope), s.sendSet = true → s.id ≠ "" →
      ct s.method = none →
      jHandleRequest pt ct s
        = [⟨s.id, JVal.null,
            some ⟨404, "function \"" ++ s.method ++ "\" not found", JVal.null⟩, false⟩])
    ∧ (∀ (pt ct : JTable) (s : JScope) (h : JHandler), s.id = "" →
      pt s.method = some h → jHandleRequest pt ct s = h s)
    ∧ (∀ (pt ct : JTable) (s : JScope) (h : JHandler), s.id ≠ "" →
      ct s.method = some h → jHandleRequest pt ct s = h s)
    ∧ (∀ {Req Err : Type} (expected : MsgType) (dec : List Nat → Except Err Req)
      (m : InMsg) (rest : List InMsg) (req : Req), m.mt = expected →
      dec m.bytes = .ok req →
      loopRun expected dec (m :: rest)
        = (req :: (loopRun expected dec rest).1, (loopRun expected dec rest).2)) := by
  refine ⟨?_, ?_, ?_, ?_, ?_, ?_, ?_, ?_, ?_, ?_⟩
  · intro ct st s hs h1 h2
    simp [mHandleRequest, h1, h2, mFail, mRespond, hs]
  · intro ct st s hs h1 hn
    simp [mHandleRequest, h1, hn, mFail, mRespond, hs]
  · intro ct st s hs h1 hn
    simp [mHandleRequest, h1, hn, mFail, mRespond, hs]
  · intro ct st s h h1 hsome
    simp [mHandleRequest, h1, hsome]
  · intro ct st s h h1 hsome
    simp [mHandleRequest, h1, hsome]
  · intro pt ct s hs h1 hn
    simp [jHandleRequest, h1, hn, jFail, jRespond, hs]
  · intro pt ct s hs h1 hn
    simp [jHandleRequest, h1, hn, jFail, jRespond, hs]
  · intro pt ct s h h1 hsome
    simp [jHandleRequest, h1, hsome]
  · intro pt ct s h h1 hsome
    simp [jHandleRequest, h1, hsome]
  · intro Req Err expected dec m rest req hmt hdec
    simp [loopRun, hmt, hdec]

/-- The empty handler table. -/
def mEmptyTable : MTable := fun _ => none

/-- Witness for C4 at the spec's Scenario B: an unknown function on an
empty registry yields the 404 failure frame with the quoted name. -/
theorem c4_routing_and_not_found_witness :
    mHandleRequest mEmptyTable mEmptyTable ⟨"2", "call", "nope", [], true⟩
      = [⟨"2", "fail", MOutput.failOut 404 "function \"nope\" not found"⟩] :=
  c4_routing_and_not_found.2.1 mEmptyTable mEmptyTable
    ⟨"2", "call", "nope", [], true⟩ rfl rfl rfl

/-! ## Binary response envelope (protocol.Response.MarshalMsg)

Strings are modelled as their byte sequences.  `msgp.AppendString`
writes a fixstr/str8/str16/str32 header from the byte length followed by
the bytes (Go casts the length to uint32; lengths are assumed below
2^32, which the round-trip theorem hypothesises).  The repository never
decodes a `Response` in Go (the decoder is the client-side MessagePack
library), so the decoder below is modelled from the spec's envelope
description. -/

/-- `msgp.AppendString` for a byte string: header byte(s) chosen from
the length, then the bytes. -/
def encStr (s : List Nat) : List Nat :=
  let n := s.length
  if n < 32 then (0xa0 + n) :: s
  else if n < 256 then 0xd9 :: n :: s
  else if n < 65536 then 0xda :: (n / 256) :: (n % 256) :: s
  else 0xdb :: (n / 16777216) :: (n / 65536 % 256) :: (n / 256 % 256) :: (n % 256) :: s

/-- Take a length-prefixed chunk off the front of a byte list. -/
def splitChunk (n : Nat) (l : List Nat) : Option (List Nat × List Nat) :=
  if n ≤ l.length then some (l.take n, l.drop n) else none

/-- Modelled from the spec: parse one MessagePack string (fixstr, str8,
str16 or str32), returning its bytes and the remaining input. -/
def parseStr : List Nat → Option (List Nat × List Nat)
  | [] => none
  | b :: rest =>
    if 0xa0 ≤ b ∧ b < 0xc0 then splitChunk (b - 0xa0) rest
    else if b = 0xd9 then
      match rest with
      | n :: r => splitChunk n r
      | [] => none
    else if b = 0xda then
      match rest with
      | hi :: lo :: r => splitChunk (hi * 256 + lo) r
      | _ => none
    else if b = 0xdb then
      match rest with
      | b0 :: b1 :: b2 :: b3 :: r =>
        splitChunk (b0 * 16777216 + b1 * 65536 + b2 * 256 + b3) r
      | _ => none
    else none

/-- The binary response envelope value: id and method as byte strings,
and the output either absent (Go nil, encoded as the MessagePack nil
byte) or an opaque pre-encoded payload blob. -/
structure MWire where
  id : List Nat
  method : List Nat
  output : Option (List Nat)
deriving DecidableEq

/-- `Response.MarshalMsg`: a 3-element array header, the id, the method,
then either the nil byte or the output's own encoding. -/
def encodeMResponse (r : MWire) : List Nat :=
  0x93 :: (encStr r.id ++ (encStr r.method ++
    match r.output with
    | none => [0xc0]
    | some bs => bs))

/-- Modelled from the spec: decode the binary response envelope 3-tuple
`[id, method, output]`, keeping the output bytes opaque. -/
def decodeMResponse (bs : List Nat) : Option (List Nat × List Nat × List Nat) :=
  match bs with
  | b :: rest =>
    if b = 0x93 then
      match parseStr rest with
      | none => none
      | some (id, rest1) =>
        match parseStr rest1 with
        | none => none
        | some (method, rest2) => some (id, method, rest2)
    else none
  | [] => none

/-- The observable content of a binary response: id, method, and the
payload bytes exactly as they appear on the wire (a nil output appears
as the MessagePack nil byte). -/
def mObs (r : MWire) : List Nat × List Nat × List Nat :=
  (r.id, r.method,
    match r.output with
    | none => [0xc0]
    | some bs => bs)

/-- Splitting at the first component's length undoes an append. -/
theorem splitChunk_append (s t : List Nat) : splitChunk s.length (s ++ t) = some (s, t) := by
  unfold splitChunk
  rw [if_pos (by simp)]
  simp

/-- Parsing undoes `encStr` for lengths below 2^32. -/
theorem parseStr_encStr (s rest : List Nat) (h : s.length < 4294967296) :
    parseStr (encStr s ++ rest) = some (s, rest) := by
  unfold encStr
  by_cases h32 : s.length < 32
  · rw [if_pos h32]
    simp only [List.cons_append, parseStr]
    rw [if_pos ⟨by omega, by omega⟩]
    rw [show 0xa0 + s.length - 0xa0 = s.length by omega]
    exact splitChunk_append s rest
  · rw [if_neg h32]
    by_cases h256 : s.length < 256
    · rw [if_pos h256]
      simp only [List.cons_append, parseStr]
      rw [if_neg (by omega), if_pos trivial]
      exact splitChunk_append s rest
    · rw [if_neg h256]
      by_cases h65536 : s.length < 65536
      · rw [if_pos h65536]
        simp only [List.cons_append, parseStr]
        rw [if_neg (by omega), if_neg (by omega), if_pos trivial]
        rw [show s.length / 256 * 256 + s.length % 256 = s.length by omega]
        exact splitChunk_append s rest
      · rw [if_neg h65536]
        simp only [List.cons_append, parseStr]
        rw [if_neg (by omega), if_neg (by omega), if_neg (by omega), if_pos trivial]
        rw [show s.length / 16777216 * 16777216 + s.length / 65536 % 256 * 65536
              + s.length / 256 % 256 * 256 + s.length % 256 = s.length by omega]
        exact splitChunk_append s rest

/-! ## JSON response envelope (jrpc protocol.Response with encoding/json)

The encoder is determined by the struct tags on `protocol.Response` and
`protocol.Error` in the source (id, result, error, end; error has code,
message and an omitempty data).  Marshalling is modelled at the JSON
value level: serialising a JSON value to text and parsing it back is the
standard library's round trip, outside this repository.  The decoder is
modelled from encoding/json's behaviour on those tagged structs, reading
each tagged field from the object (a shape mismatch yields `none`);
`JVal.null` models a nil `any`, so an absent omitempty field and a null
field decode alike, as they do through encoding/json. -/

/-- Whether a JSON value is null (a nil `any` in Go). -/
def isNullJ : JVal → Bool
  | .null => true
  | _ => false

/-- Marshalling of `*protocol.Error`: nil pointers marshal as null; the
omitempty `data` field is dropped when nil. -/
def encodeJError : Option JErr → JVal
  | none => .null
  | some e =>
    .obj (("code", .num e.code) :: ("message", .str e.message) ::
      (if isNullJ e.data then [] else [("data", e.data)]))

/-- Marshalling of `protocol.Response` per its json tags. -/
def encodeJResponse (r : JFrame) : JVal :=
  .obj [("id", .str r.id), ("result", r.result),
        ("error", encodeJError r.error), ("end", .bool r.endB)]

/-- Modelled from encoding/json on `*protocol.Error`. -/
def decodeJError : JVal → Option (Option JErr)
  | .null => some none
  | .obj fields =>
    match fields.lookup "code", fields.lookup "message" with
    | some (.num c), some (.str m) =>
      some (some ⟨c, m,
        match fields.lookup "data" with
        | none => .null
        | some v => v⟩)
    | _, _ => none
  | _ => none

/-- Modelled from encoding/json on `protocol.Response`. -/
def decodeJResponse : JVal → Option JFrame
  | .obj fields =>
    match fields.lookup "id", fields.lookup "result",
          fields.lookup "error", fields.lookup "end" with
    | some (.str id), some res, some errv, some (.bool e) =>
      match decodeJError errv with
      | none => none
      | some err => some ⟨id, res, err, e⟩
    | _, _, _, _ => none
  | _ => none

/-- C9: decode after encode is the identity on the observable response,
for both encodings.  Binary: the decoded 3-tuple is exactly the id, the
method and the wire payload of the original (lengths below 2^32, the
range of the Go length header).  JSON: decoding the marshalled object
returns the original response value. -/
theorem c9_response_roundtrip :
    (∀ r : MWire, r.id.length < 4294967296 → r.method.length < 4294967296 →
      decodeMResponse (encodeMResponse r) = some (mObs r))
    ∧ (∀ r : JFrame, decodeJResponse (encodeJResponse r) = some r) := by
  constructor
  · intro r h1 h2
    obtain ⟨id, method, output⟩ := r
    simp only [encodeMResponse, decodeMResponse, if_pos trivial,
      parseStr_encStr id _ h1, parseStr_encStr method _ h2]
    rfl
  · intro r
    obtain ⟨id, res, err, eb⟩ := r
    cases err with
    | none => rfl
    | some e =>
      obtain ⟨c, m, d⟩ := e
      by_cases hd : isNullJ d
      · have hnull : d = .null := by cases d <;> simp_all [isNullJ]
        subst hnull
        rfl
      · simp only [encodeJResponse, encodeJError, if_neg hd]
        rfl

/-- Witness for C9 at a concrete binary response. -/
theorem c9_response_roundtrip_witness :
    decodeMResponse (encodeMResponse ⟨[49], [115, 117, 99, 99], some [0xc0]⟩)
      = some ([49], [115, 117, 99, 99], [0xc0]) :=
  c9_response_roundtrip.1 ⟨[49], [115, 117, 99, 99], some [0xc0]⟩
    (by decide) (by decide)

/-! ## Dependency orderer (rig/hook/hook.go, Order)

`Order` walks the hooks in original order and, for each one, recursively
places every provider of a name it depends on before it, skipping
already-placed hooks (the `placed` marker is set on entry, which is what
breaks cycles).  A hook that does not implement the Provider or
Dependent interface behaves exactly like one returning an empty list, so
hooks are modelled by their two name lists.  The Go recursion terminates
because every non-trivial call marks a new index first; the model makes
this explicit with a fuel argument that strictly exceeds the number of
unplaced indices at every call, so the fuel never reaches zero on the
calls `Order` makes. -/

/-- A hook, seen through its `Provides` and `DependsOn` interfaces. -/
structure Hook where
  provides : List String
  dependsOn : List String
deriving DecidableEq

/-- Out-of-range hook lookups (never reached on the indices `Order`
generates). -/
def defHook : Hook := ⟨[], []⟩

/-- The `dependencies` map of `Order`: the indices providing `name`, in
ascending order (Go appends them while walking the hooks in order). -/
def providersOf (hooks : List Hook) (name : String) : List Nat :=
  (List.range hooks.length).filter
    (fun i => decide (name ∈ (hooks.getD i defHook).provides))

/-- Insert into an ascending list. -/
def insertAsc (x : Nat) : List Nat → List Nat
  | [] => [x]
  | y :: ys => if x ≤ y then x :: y :: ys else y :: insertAsc x ys

/-- Ascending insertion sort (`sort.Ints`). -/
def sortAsc : List Nat → List Nat
  | [] => []
  | x :: xs => insertAsc x (sortAsc xs)

/-- The `items` slice a hook's placement recurses into: the providers of
each depended-on name, gathered then sorted ascending. -/
def depItems (hooks : List Hook) (i : Nat) : List Nat :=
  sortAsc (((hooks.getD i defHook).dependsOn).map (providersOf hooks)).flatten

/-- The dependency edge: hook `j` provides a name hook `i` depends on,
so `j` must run before `i`.  Only satisfiable for `j` in range. -/
def Prec (hooks : List Hook) (j i : Nat) : Prop :=
  j < hooks.length ∧
    ∃ name ∈ (hooks.getD i defHook).dependsOn, name ∈ (hooks.getD j defHook).provides

instance (hooks : List Hook) (j i : Nat) : Decidable (Prec hooks j i) := by
  unfold Prec; infer_instance

/-- The mutable state of `Order`: the `placed` markers and the output,
both as hook indices. -/
structure OState where
  placed : List Nat
  order : List Nat
deriving DecidableEq

mutual
/-- `place(i)`: skip if already placed; otherwise mark `i`, recursively
place the providers of every name it depends on, then append `i`. -/
def place (hooks : List Hook) (fuel : Nat) (i : Nat) (st : OState) : OState :=
  match fuel with
  | 0 => st
  | fuel' + 1 =>
    if i ∈ st.placed then st
    else
      let st1 : OState := ⟨i :: st.placed, st.order⟩
      let st2 := placeList hooks fuel' (depItems hooks i) st1
      ⟨st2.placed, st2.order ++ [i]⟩
termination_by (fuel, 0)

/-- The `for _, j := range items` loop inside `place`. -/
def placeList (hooks : List Hook) (fuel : Nat) (js : List Nat) (st : OState) : OState :=
  match js with
  | [] => st
  | j :: js' => placeList hooks fuel js' (place hooks fuel j st)
termination_by (fuel, js.length + 1)
end

/-- The top-level loop of `Order`, supplying more fuel than there are
hooks (so the fuel never runs out; see `place_spec`). -/
def runOrder (hooks : List Hook) : OState :=
  (List.range hooks.length).foldl
    (fun st i => place hooks (hooks.length + 1) i st) ⟨[], []⟩

/-- The index order `Order` produces. -/
def orderIndices (hooks : List Hook) : List Nat := (runOrder hooks).order

/-- `hook.Order`: the hooks reordered. -/
def Order (hooks : List Hook) : List Hook :=
  (orderIndices hooks).map (fun i => hooks.getD i defHook)

/-- Membership in `insertAsc`. -/
theorem mem_insertAsc {x y : Nat} {l : List Nat} :
    y ∈ insertAsc x l ↔ y = x ∨ y ∈ l := by
  induction l with
  | nil => simp [insertAsc]
  | cons z zs ih =>
    simp only [insertAsc]
    split
    · simp [List.mem_cons]
    · simp only [List.mem_cons, ih]
      tauto

/-- Sorting preserves membership. -/
theorem mem_sortAsc {x : Nat} {l : List Nat} : x ∈ sortAsc l ↔ x ∈ l := by
  induction l with
  | nil => simp [sortAsc]
  | cons z zs ih => simp [sortAsc, mem_insertAsc, ih]

/-- Membership in the providers list. -/
theorem mem_providersOf {hooks : List Hook} {name : String} {j : Nat} :
    j ∈ providersOf hooks name
      ↔ j < hooks.length ∧ name ∈ (hooks.getD j defHook).provides := by
  simp [providersOf, List.mem_filter, List.mem_range]

/-- The `items` of hook `i` are exactly its `Prec`-predecessors. -/
theorem mem_depItems {hooks : List Hook} {i j : Nat} :
    j ∈ depItems hooks i ↔ Prec hooks j i := by
  simp only [depItems, mem_sortAsc, List.mem_flatten, List.mem_map, Prec]
  constructor
  · rintro ⟨l, ⟨name, hname, rfl⟩, hj⟩
    rcases mem_providersOf.mp hj with ⟨hlt, hp⟩
    exact ⟨hlt, name, hname, hp⟩
  · rintro ⟨hlt, name, hname, hp⟩
    exact ⟨providersOf hooks name, ⟨name, hname, rfl⟩, mem_providersOf.mpr ⟨hlt, hp⟩⟩

/-- The number of indices below `n` not yet placed (the quantity that
shrinks at every non-trivial `place` call). -/
def unmarkedP (n : Nat) (placed : List Nat) : Nat :=
  ((Finset.range n).filter (fun k => k ∉ placed)).card

/-- At most `n` indices are unplaced. -/
theorem unmarkedP_le (n : Nat) (placed : List Nat) : unmarkedP n placed ≤ n := by
  calc unmarkedP n placed ≤ (Finset.range n).card := Finset.card_filter_le _ _
    _ = n := Finset.card_range n

/-- Marking a fresh in-range index shrinks the unplaced count by one. -/
theorem unmarkedP_mark {n i : Nat} {placed : List Nat} (hi : i < n) (hni : i ∉ placed) :
    unmarkedP n placed = unmarkedP n (i :: placed) + 1 := by
  unfold unmarkedP
  have hmem : i ∈ (Finset.range n).filter (fun k => k ∉ placed) := by
    simp [Finset.mem_filter, Finset.mem_range, hi, hni]
  have hset : (Finset.range n).filter (fun k => k ∉ (i :: placed))
      = ((Finset.range n).filter (fun k => k ∉ placed)).erase i := by
    ext k
    simp only [Finset.mem_filter, Finset.mem_erase, Finset.mem_range, List.mem_cons]
    tauto
  rw [hset, Finset.card_erase_of_mem hmem]
  have hpos : 0 < ((Finset.range n).filter (fun k => k ∉ placed)).card :=
    Finset.card_pos.mpr ⟨i, hmem⟩
  omega

/-- More markers never means more unplaced indices. -/
theorem unmarkedP_mono {n : Nat} {p1 p2 : List Nat} (h : ∀ k ∈ p1, k ∈ p2) :
    unmarkedP n p2 ≤ unmarkedP n p1 := by
  apply Finset.card_le_card
  intro k hk
  simp only [Finset.mem_filter, Finset.mem_range] at hk ⊢
  exact ⟨hk.1, fun hc => hk.2 (h k hc)⟩

/-- The basic state invariant: the output has no duplicates and lists
only marked indices. -/
def Inv0 (st : OState) : Prop :=
  st.order.Nodup ∧ ∀ k ∈ st.order, k ∈ st.placed

/-- Structural facts one placement step guarantees: markers only grow,
the output only appends, every index marked during the step was also
appended by it, every index appended was unmarked before it, new marks
are in range, and `Inv0` is preserved. -/
structure StepPost (n : Nat) (st st' : OState) : Prop where
  placedMono : ∀ k ∈ st.placed, k ∈ st'.placed
  orderExt : ∃ t, st'.order = st.order ++ t
  newPlacedOrdered : ∀ k ∈ st'.placed, k ∈ st.placed ∨ k ∈ st'.order
  newOrderedFresh : ∀ k ∈ st'.order, k ∈ st.order ∨ k ∉ st.placed
  newPlacedLt : ∀ k ∈ st'.placed, k ∈ st.placed ∨ k < n
  inv : Inv0 st → Inv0 st'

/-- A step from a state to itself. -/
theorem StepPost.rfl (n : Nat) (st : OState) : StepPost n st st where
  placedMono := fun k hk => hk
  orderExt := ⟨[], by simp⟩
  newPlacedOrdered := fun k hk => Or.inl hk
  newOrderedFresh := fun k hk => Or.inl hk
  newPlacedLt := fun k hk => Or.inl hk
  inv := fun h => h

/-- Steps compose. -/
theorem StepPost.trans {n : Nat} {a b c : OState}
    (h1 : StepPost n a b) (h2 : StepPost n b c) : StepPost n a c where
  placedMono := fun k hk => h2.placedMono k (h1.placedMono k hk)
  orderExt := by
    obtain ⟨t1, ht1⟩ := h1.orderExt
    obtain ⟨t2, ht2⟩ := h2.orderExt
    exact ⟨t1 ++ t2, by rw [ht2, ht1, List.append_assoc]⟩
  newPlacedOrdered := by
    intro k hk
    rcases h2.newPlacedOrdered k hk with hb | hc
    · rcases h1.newPlacedOrdered k hb with ha | ho
      · exact Or.inl ha
      · refine Or.inr ?_
        obtain ⟨t2, ht2⟩ := h2.orderExt
        rw [ht2]
        exact List.mem_append_left _ ho
    · exact Or.inr hc
  newOrderedFresh := by
    intro k hk
    rcases h2.newOrderedFresh k hk with hb | hnb
    · exact h1.newOrderedFresh k hb
    · exact Or.inr (fun hc => hnb (h1.placedMono k hc))
  newPlacedLt := by
    intro k hk
    rcases h2.newPlacedLt k hk with hb | hn
    · exact h1.newPlacedLt k hb
    · exact Or.inr hn
  inv := fun h => h2.inv (h1.inv h)

/-- The structural specification of `place` at a given fuel. -/
def PProp (hooks : List Hook) (fuel : Nat) : Prop :=
  ∀ i st, i < hooks.length → unmarkedP hooks.length st.placed < fuel →
    StepPost hooks.length st (place hooks fuel i st)
    ∧ i ∈ (place hooks fuel i st).placed

/-- The structural specification of `placeList` at a given fuel. -/
def QProp (hooks : List Hook) (fuel : Nat) : Prop :=
  ∀ js st, (∀ j ∈ js, j < hooks.length) → unmarkedP hooks.length st.placed < fuel →
    StepPost hooks.length st (placeList hooks fuel js st)
    ∧ ∀ j ∈ js, j ∈ (placeList hooks fuel js st).placed

/-- The loop inherits the specification of its body. -/
theorem QProp_of_PProp {hooks : List Hook} {fuel : Nat}
    (hP : PProp hooks fuel) : QProp hooks fuel := by
  intro js
  induction js with
  | nil =>
    intro st hjs hf
    refine ⟨?_, by simp⟩
    simp only [placeList]
    exact StepPost.rfl _ _
  | cons j js ih =>
    intro st hjs hf
    simp only [placeList]
    have h1 := hP j st (hjs j (List.mem_cons_self j js)) hf
    have hf1 : unmarkedP hooks.length (place hooks fuel j st).placed < fuel :=
      lt_of_le_of_lt (unmarkedP_mono h1.1.placedMono) hf
    have h2 := ih (place hooks fuel j st)
      (fun k hk => hjs k (List.mem_cons_of_mem _ hk)) hf1
    refine ⟨h1.1.trans h2.1, ?_⟩
    intro k hk
    rcases List.mem_cons.mp hk with rfl | hk'
    · exact h2.1.placedMono k h1.2
    · exact h2.2 k hk'

/-- The body inherits the loop's specification at one more fuel. -/
theorem PProp_succ {hooks : List Hook} {fuel : Nat}
    (hQ : QProp hooks fuel) : PProp hooks (fuel + 1) := by
  intro i st hi hf
  simp only [place]
  by_cases hmem : i ∈ st.placed
  · rw [if_pos hmem]
    exact ⟨StepPost.rfl _ _, hmem⟩
  · rw [if_neg hmem]
    have hfm : unmarkedP hooks.length (i :: st.placed) < fuel := by
      have heq := @unmarkedP_mark hooks.length i st.placed hi hmem
      omega
    have hjs : ∀ j ∈ depItems hooks i, j < hooks.length :=
      fun j hj => (mem_depItems.mp hj).1
    obtain ⟨hsp, hjsmem⟩ := hQ (depItems hooks i) ⟨i :: st.placed, st.order⟩ hjs hfm
    set st2 := placeList hooks fuel (depItems hooks i) ⟨i :: st.placed, st.order⟩ with hst2
    have hiIn1 : i ∈ (⟨i :: st.placed, st.order⟩ : OState).placed :=
      List.mem_cons_self i st.placed
    refine ⟨?_, hsp.placedMono i hiIn1⟩
    constructor
    · intro k hk
      exact hsp.placedMono k (List.mem_cons_of_mem _ hk)
    · obtain ⟨t, ht⟩ := hsp.orderExt
      exact ⟨t ++ [i], by simp only [ht]; simp [List.append_assoc]⟩
    · intro k hk
      rcases hsp.newPlacedOrdered k hk with hk1 | hk2
      · rcases List.mem_cons.mp hk1 with rfl | hk1'
        · exact Or.inr (by simp)
        · exact Or.inl hk1'
      · exact Or.inr (List.mem_append_left _ hk2)
    · intro k hk
      rcases List.mem_append.mp hk with hk2 | hk2
      · rcases hsp.newOrderedFresh k hk2 with h | h
        · exact Or.inl h
        · exact Or.inr (fun hc => h (List.mem_cons_of_mem _ hc))
      · have : k = i := by simpa using hk2
        subst this
        exact Or.inr hmem
    · intro k hk
      rcases hsp.newPlacedLt k hk with h | h
      · rcases List.mem_cons.mp h with rfl | h'
        · exact Or.inr hi
        · exact Or.inl h'
      · exact Or.inr h
    · intro hinv
      have hinv2 : Inv0 st2 :=
        hsp.inv ⟨hinv.1, fun k hk => List.mem_cons_of_mem _ (hinv.2 k hk)⟩
      have hino : i ∉ st2.order := by
        intro hc
        rcases hsp.newOrderedFresh i hc with h | h
        · exact hmem (hinv.2 i h)
        · exact h hiIn1
      constructor
      · exact hinv2.1.append (List.nodup_singleton i)
          (fun a ha hb => by
            have : a = i := by simpa using hb
            subst this
            exact hino ha)
      · intro k hk
        rcases List.mem_append.mp hk with h | h
        · exact hinv2.2 k h
        · have : k = i := by simpa using h
          subst this
          exact hsp.placedMono _ hiIn1

/-- The structural specification holds at every fuel. -/
theorem place_spec (hooks : List Hook) : ∀ fuel, PProp hooks fuel := by
  intro fuel
  induction fuel with
  | zero => intro i st hi hf; exact absurd hf (Nat.not_lt_zero _)
  | succ fuel ih => exact PProp_succ (QProp_of_PProp ih)

/-- The structural loop specification holds at every fuel. -/
theorem placeList_spec (hooks : List Hook) (fuel : Nat) : QProp hooks fuel :=
  QProp_of_PProp (place_spec hooks fuel)

/-- The top-level loop accumulates the structural facts: it is one big
step from the initial state, and every processed index ends up placed. -/
theorem foldPlace_spec (hooks : List Hook) (is : List Nat) (st : OState)
    (his : ∀ i ∈ is, i < hooks.length) :
    StepPost hooks.length st
      (is.foldl (fun s i => place hooks (hooks.length + 1) i s) st)
    ∧ ∀ i ∈ is, i ∈ (is.foldl (fun s i => place hooks (hooks.length + 1) i s) st).placed := by
  induction is generalizing st with
  | nil => exact ⟨StepPost.rfl _ _, by simp⟩
  | cons i is ih =>
    simp only [List.foldl_cons]
    have hf : unmarkedP hooks.length st.placed < hooks.length + 1 :=
      Nat.lt_succ_of_le (unmarkedP_le _ _)
    have h1 := place_spec hooks (hooks.length + 1) i st (his i (List.mem_cons_self i is)) hf
    have h2 := ih (place hooks (hooks.length + 1) i st)
      (fun k hk => his k (List.mem_cons_of_mem _ hk))
    refine ⟨h1.1.trans h2.1, ?_⟩
    intro k hk
    rcases List.mem_cons.mp hk with rfl | hk'
    · exact h2.1.placedMono k h1.2
    · exact h2.2 k hk'

/-- What `runOrder` guarantees structurally: the output is duplicate
free, complete (every index below `hooks.length` occurs) and in range. -/
theorem runOrder_facts (hooks : List Hook) :
    Inv0 (runOrder hooks)
    ∧ (∀ i, i < hooks.length → i ∈ (runOrder hooks).order)
    ∧ (∀ k ∈ (runOrder hooks).order, k < hooks.length) := by
  have h := foldPlace_spec hooks (List.range hooks.length) ⟨[], []⟩
    (fun i hi => List.mem_range.mp hi)
  have hrw : runOrder hooks
      = (List.range hooks.length).foldl
          (fun s i => place hooks (hooks.length + 1) i s) ⟨[], []⟩ := rfl
  rw [hrw]
  have hinv : Inv0 ((List.range hooks.length).foldl
      (fun s i => place hooks (hooks.length + 1) i s) ⟨[], []⟩) :=
    h.1.inv ⟨List.nodup_nil, by simp⟩
  refine ⟨hinv, ?_, ?_⟩
  · intro i hi
    have hp := h.2 i (List.mem_range.mpr hi)
    rcases h.1.newPlacedOrdered i hp with hc | ho
    · exact absurd hc (List.not_mem_nil i)
    · exact ho
  · intro k hk
    have hp := hinv.2 k hk
    rcases h.1.newPlacedLt k hp with hc | hlt
    · exact absurd hc (List.not_mem_nil k)
    · exact hlt

/-- The produced index order is a permutation of `range`. -/
theorem orderIndices_perm (hooks : List Hook) :
    (orderIndices hooks).Perm (List.range hooks.length) := by
  obtain ⟨hinv, hall, hlt⟩ := runOrder_facts hooks
  show ((runOrder hooks).order).Perm (List.range hooks.length)
  rw [List.perm_ext_iff_of_nodup hinv.1 (List.nodup_range _)]
  intro a
  constructor
  · intro h
    exact List.mem_range.mpr (hlt a h)
  · intro h
    exact hall a (List.mem_range.mp h)

/-- Reading every index of a list back through `getD` is the list. -/
theorem map_getD_range (l : List Hook) :
    (List.range l.length).map (fun i => l.getD i defHook) = l := by
  apply List.ext_getElem
  · simp
  · intro i h1 h2
    simp [List.getD_eq_getElem, h2]

/-! ### The topological property

The edge relation `Prec` is assumed compatible with a rank function
(equivalent to acyclicity on finite graphs: a rank exists exactly when
the dependency graph has no directed cycle).  The invariant `InvT` says
the output so far respects every edge; `Pend` is the set of marked but
not yet appended indices (the DFS stack), which the rank hypothesis
keeps strictly above the index being placed. -/

/-- The output respects every `Prec` edge into any listed index. -/
def InvT (hooks : List Hook) (st : OState) : Prop :=
  ∀ i ∈ st.order, ∀ j, Prec hooks j i →
    j ∈ st.order ∧ st.order.indexOf j < st.order.indexOf i

/-- Marked but not yet appended (the DFS stack). -/
def Pend (st : OState) (k : Nat) : Prop := k ∈ st.placed ∧ k ∉ st.order

/-- The topological specification of `place` at a given fuel. -/
def PTProp (hooks : List Hook) (r : Nat → Nat) (fuel : Nat) : Prop :=
  ∀ i st, i < hooks.length → unmarkedP hooks.length st.placed < fuel →
    Inv0 st → InvT hooks st → (∀ k, Pend st k → r i < r k) →
    InvT hooks (place hooks fuel i st)
    ∧ i ∈ (place hooks fuel i st).order
    ∧ (∀ k, Pend (place hooks fuel i st) k → Pend st k)

/-- The topological specification of `placeList` at a given fuel. -/
def QTProp (hooks : List Hook) (r : Nat → Nat) (fuel : Nat) : Prop :=
  ∀ js st, (∀ j ∈ js, j < hooks.length) → unmarkedP hooks.length st.placed < fuel →
    Inv0 st → InvT hooks st → (∀ k, Pend st k → ∀ j ∈ js, r j < r k) →
    InvT hooks (placeList hooks fuel js st)
    ∧ (∀ j ∈ js, j ∈ (placeList hooks fuel js st).order)
    ∧ (∀ k, Pend (placeList hooks fuel js st) k → Pend st k)

/-- The loop inherits the topological specification of its body. -/
theorem QTProp_of_PTProp {hooks : List Hook} {r : Nat → Nat} {fuel : Nat}
    (hP : PTProp hooks r fuel) : QTProp hooks r fuel := by
  intro js
  induction js with
  | nil =>
    intro st _ _ _ hT _
    simp only [placeList]
    exact ⟨hT, by simp, fun k hk => hk⟩
  | cons j js ih =>
    intro st hjs hf h0 hT hpend
    simp only [placeList]
    have hj := hjs j (List.mem_cons_self j js)
    have h1 := hP j st hj hf h0 hT (fun k hk => hpend k hk j (List.mem_cons_self j js))
    have hs1 := (place_spec hooks fuel j st hj hf).1
    have hf1 : unmarkedP hooks.length (place hooks fuel j st).placed < fuel :=
      lt_of_le_of_lt (unmarkedP_mono hs1.placedMono) hf
    have h01 : Inv0 (place hooks fuel j st) := hs1.inv h0
    have hjs' : ∀ k ∈ js, k < hooks.length :=
      fun k hk => hjs k (List.mem_cons_of_mem _ hk)
    have h2 := ih (place hooks fuel j st) hjs' hf1 h01 h1.1
      (fun k hk j' hj' => hpend k (h1.2.2 k hk) j' (List.mem_cons_of_mem _ hj'))
    refine ⟨h2.1, ?_, fun k hk => h1.2.2 k (h2.2.2 k hk)⟩
    intro k hk
    rcases List.mem_cons.mp hk with rfl | hk'
    · have hs2 := (placeList_spec hooks fuel js (place hooks fuel k st) hjs' hf1).1
      obtain ⟨t, ht⟩ := hs2.orderExt
      rw [ht]
      exact List.mem_append_left _ h1.2.1
    · exact h2.2.1 k hk'

/-- The body inherits the loop's topological specification at one more
fuel, given the rank hypothesis. -/
theorem PTProp_succ {hooks : List Hook} {r : Nat → Nat} {fuel : Nat}
    (hr : ∀ i, i < hooks.length → ∀ j, j < hooks.length → Prec hooks j i → r j < r i)
    (hQ : QTProp hooks r fuel) : PTProp hooks r (fuel + 1) := by
  intro i st hi hf h0 hT hpend
  simp only [place]
  by_cases hmem : i ∈ st.placed
  · rw [if_pos hmem]
    have hio : i ∈ st.order := by
      by_contra hno
      exact lt_irrefl (r i) (hpend i ⟨hmem, hno⟩)
    exact ⟨hT, hio, fun k hk => hk⟩
  · rw [if_neg hmem]
    have hfm : unmarkedP hooks.length (i :: st.placed) < fuel := by
      have heq := @unmarkedP_mark hooks.length i st.placed hi hmem
      omega
    have hjs : ∀ j ∈ depItems hooks i, j < hooks.length :=
      fun j hj => (mem_depItems.mp hj).1
    have h01 : Inv0 (⟨i :: st.placed, st.order⟩ : OState) :=
      ⟨h0.1, fun k hk => List.mem_cons_of_mem _ (h0.2 k hk)⟩
    have hT1 : InvT hooks ⟨i :: st.placed, st.order⟩ := hT
    have hpend1 : ∀ k, Pend ⟨i :: st.placed, st.order⟩ k →
        ∀ j ∈ depItems hooks i, r j < r k := by
      intro k hk j hj
      have hprec := mem_depItems.mp hj
      rcases List.mem_cons.mp hk.1 with rfl | hkp
      · exact hr k hi j hprec.1 hprec
      · exact lt_trans (hr i hi j hprec.1 hprec) (hpend k ⟨hkp, hk.2⟩)
    have h2 := hQ (depItems hooks i) ⟨i :: st.placed, st.order⟩ hjs hfm h01 hT1 hpend1
    have hs2 := (placeList_spec hooks fuel (depItems hooks i)
      ⟨i :: st.placed, st.order⟩ hjs hfm).1
    set st2 := placeList hooks fuel (depItems hooks i) ⟨i :: st.placed, st.order⟩
      with hdef2
    have hiIn1 : i ∈ (⟨i :: st.placed, st.order⟩ : OState).placed :=
      List.mem_cons_self i st.placed
    have hino : i ∉ st2.order := by
      intro hc
      rcases hs2.newOrderedFresh i hc with h | h
      · exact hmem (h0.2 i h)
      · exact h hiIn1
    refine ⟨?_, ?_, ?_⟩
    · intro i' hi' j hprec
      rcases List.mem_append.mp hi' with hi2 | hieq
      · have hres := h2.1 i' hi2 j hprec
        refine ⟨List.mem_append_left _ hres.1, ?_⟩
        rw [List.indexOf_append_of_mem hres.1, List.indexOf_append_of_mem hi2]
        exact hres.2
      · have hieq' : i' = i := by simpa using hieq
        subst hieq'
        have hjd : j ∈ depItems hooks i' := mem_depItems.mpr hprec
        have hjo : j ∈ st2.order := h2.2.1 j hjd
        refine ⟨List.mem_append_left _ hjo, ?_⟩
        rw [List.indexOf_append_of_mem hjo, List.indexOf_append_of_not_mem hino,
          List.indexOf_cons_self]
        have hlen : st2.order.indexOf j < st2.order.length :=
          List.indexOf_lt_length.mpr hjo
        omega
    · exact List.mem_append_right _ (List.mem_singleton_self i)
    · intro k hk
      obtain ⟨hkp, hko⟩ := hk
      have hkne : k ≠ i := fun hc => hko (by simp [hc])
      have hk2 : Pend st2 k := ⟨hkp, fun hc => hko (List.mem_append_left _ hc)⟩
      have hk1 := h2.2.2 k hk2
      exact ⟨(List.mem_cons.mp hk1.1).resolve_left hkne, hk1.2⟩

/-- The topological specification holds at every fuel. -/
theorem placeT_spec (hooks : List Hook) (r : Nat → Nat)
    (hr : ∀ i, i < hooks.length → ∀ j, j < hooks.length → Prec hooks j i → r j < r i) :
    ∀ fuel, PTProp hooks r fuel := by
  intro fuel
  induction fuel with
  | zero => intro i st hi hf; exact absurd hf (Nat.not_lt_zero _)
  | succ fuel ih => exact PTProp_succ hr (QTProp_of_PTProp ih)

/-- Along the top-level loop the output stays topologically sorted, the
basic invariant holds, and nothing stays pending between iterations. -/
theorem foldPlaceT_spec (hooks : List Hook) (r : Nat → Nat)
    (hr : ∀ i, i < hooks.length → ∀ j, j < hooks.length → Prec hooks j i → r j < r i)
    (is : List Nat) (st : OState)
    (his : ∀ i ∈ is, i < hooks.length) (h0 : Inv0 st) (hT : InvT hooks st)
    (hnp : ∀ k, ¬ Pend st k) :
    InvT hooks (is.foldl (fun s i => place hooks (hooks.length + 1) i s) st)
    ∧ Inv0 (is.foldl (fun s i => place hooks (hooks.length + 1) i s) st)
    ∧ ∀ k, ¬ Pend (is.foldl (fun s i => place hooks (hooks.length + 1) i s) st) k := by
  induction is generalizing st with
  | nil => exact ⟨hT, h0, hnp⟩
  | cons i is ih =>
    simp only [List.foldl_cons]
    have hi := his i (List.mem_cons_self i is)
    have hf : unmarkedP hooks.length st.placed < hooks.length + 1 :=
      Nat.lt_succ_of_le (unmarkedP_le _ _)
    have h1 := placeT_spec hooks r hr (hooks.length + 1) i st hi hf h0 hT
      (fun k hk => absurd hk (hnp k))
    have hs1 := (place_spec hooks (hooks.length + 1) i st hi hf).1
    exact ih (place hooks (hooks.length + 1) i st)
      (fun k hk => his k (List.mem_cons_of_mem _ hk))
      (hs1.inv h0) h1.1 (fun k hk => hnp k (h1.2.2 k hk))

/-- C8: `hook.Order` is a depth-first placement.  First, on every input
— cyclic ones included — it returns a permutation of the hooks it was
given, with no error (`Order` is total).  Second, whenever the
dependency edges `Prec` are compatible with a rank (which for a finite
graph is exactly acyclicity), every provider of a depended-on name is
placed strictly before its dependent in the output index order. -/
theorem c8_order_depth_first_placement :
    (∀ hooks : List Hook, (Order hooks).Perm hooks)
    ∧ (∀ (hooks : List Hook) (r : Nat → Nat),
      (∀ i, i < hooks.length → ∀ j, j < hooks.length → Prec hooks j i → r j < r i) →
      ∀ i, i < hooks.length → ∀ j, Prec hooks j i →
        (orderIndices hooks).indexOf j < (orderIndices hooks).indexOf i) := by
  constructor
  · intro hooks
    have hperm := (orderIndices_perm hooks).map (fun i => hooks.getD i defHook)
    rw [map_getD_range] at hperm
    exact hperm
  · intro hooks r hr i hi j hprec
    have h := foldPlaceT_spec hooks r hr (List.range hooks.length) ⟨[], []⟩
      (fun k hk => List.mem_range.mp hk)
      ⟨List.nodup_nil, by simp⟩
      (fun i' hi' j' _ => absurd hi' (List.not_mem_nil i'))
      (fun k hk => absurd hk.1 (List.not_mem_nil k))
    have hio : i ∈ (runOrder hooks).order := (runOrder_facts hooks).2.1 i hi
    exact (h.1 i hio j hprec).2

/-- A two-hook configuration: hook 0 depends on "a", hook 1 provides
it. -/
def c8hooks : List Hook := [⟨[], ["a"]⟩, ⟨["a"], []⟩]

/-- A rank compatible with the dependencies of `c8hooks`. -/
def c8rank : Nat → Nat := fun j => if j = 1 then 0 else 1

/-- Witness for C8: on the concrete acyclic input, the provider (hook 1)
is placed before its dependent (hook 0). -/
theorem c8_order_depth_first_placement_witness :
    (orderIndices c8hooks).indexOf 1 < (orderIndices c8hooks).indexOf 0 :=
  c8_order_depth_first_placement.2 c8hooks c8rank (by decide) 0 (by decide) 1 (by decide)

end RigGo
